import Mathlib

/-!
Verification development for the MLBB image data extractor
(`mlbb_extractor`).  The pure decoding layer of the repository is embedded
shallowly:

* OCR text is modelled as `List Char`; digit-only strings as `List Nat`
  (each entry one decimal digit).
* Python `int(...)` on a digit string is `natOfDigits`.
* Python floats that only ever hold one-decimal values or small integer
  ratios are modelled as exact rationals (`ℚ`); for every comparison the
  code performs (`< 10`, `< 5`, `3.0 <= v <= 20.0`, `>= 0.6`) the IEEE
  double result coincides with the rational result because the compared
  quantities are quotients of small integers that are never within a
  rounding error of the integer/decimal bounds unless exactly equal to
  them (and then they are exactly representable).

Sources embedded: `mlbb_extractor/extractor/mlbb_extractor.py`
(`_parse_kda_all_combinations`, `_parse_concatenated_stats_smart`,
`extract_player_stats`, `_parse_rating`, `_parse_duration`,
`find_player_by_nickname`, `_similar_names`, `extract_all_players`)
and `mlbb_extractor/config.py` (`ExtractorConfig.auto_select_profile`).
-/

namespace MLBB

/-- Python `int` of a decimal digit string, given most-significant first. -/
def natOfDigits (ds : List Nat) : Nat := ds.foldl (fun a d => 10 * a + d) 0

/-- Numeric value of an ASCII digit character. -/
def charDigit (c : Char) : Nat := c.toNat - 48

/-- All digits of a text, in order (`''.join(filter(str.isdigit, text))`). -/
def textDigits (t : List Char) : List Nat := (t.filter Char.isDigit).map charDigit

/-!
## `_parse_kda_all_combinations` (mlbb_extractor.py lines 391-448)

The Python loops are

    for k_len in range(1, min(3, length-1)):
        for d_len in range(1, min(3, length - k_len)):
            a_len = length - k_len - d_len
            if not (1 <= a_len <= 3): continue
            ... parse, filter by 0<=K<=50, 0<=D<=30, 0<=A<=50, score ...

and the survivors `(score, k, d, a)` are sorted with
`valid_parses.sort(reverse=True)` (descending lexicographic order on the
whole tuple) before the first element is returned.
-/

/-- The `(K, D, A)` integers of the cut of `s` at `kLen`/`dLen`
(`int(kda_str[:k_len])`, `int(kda_str[k_len:k_len+d_len])`,
`int(kda_str[k_len+d_len:])`). -/
def cutKDA (s : List Nat) (kl dl : Nat) : Nat × Nat × Nat :=
  (natOfDigits (s.take kl), natOfDigits ((s.drop kl).take dl),
   natOfDigits (s.drop (kl + dl)))

/-- The range filter `0 <= k <= 50 and 0 <= d <= 30 and 0 <= a <= 50`
(the lower bounds are vacuous over `Nat`). -/
def kdaInRange (k d a : Nat) : Prop := k ≤ 50 ∧ d ≤ 30 ∧ a ≤ 50

instance (k d a : Nat) : Decidable (kdaInRange k d a) := by
  unfold kdaInRange; infer_instance

/-- The heuristic score of one surviving combination (lines 412-437).
`ratio = max(k, a) / min(k, a)`; since `k, a ≤ 50`, the float tests
`ratio < 10` and `ratio < 5` are exactly `max < 10 * min` and
`max < 5 * min`. -/
def kdaScore (len kl dl k d a : Nat) : Int :=
  let al := len - kl - dl
  let dv : Int := ((kl : Int) - dl).natAbs + ((dl : Int) - al).natAbs
  (if d < k + a then 10 else 0)
  + (if 0 < k ∧ 0 < a then
      (if max k a < 10 * min k a then 5 else 0)
      + (if max k a < 5 * min k a then 3 else 0)
     else 0)
  + max 0 (5 - dv * 2)
  + (if len = 6 ∧ kl = 2 ∧ dl = 2 ∧ al = 2 then 5 else 0)
  + (if len = 5 ∧ kl = 2 ∧ dl = 2 ∧ al = 1 then 5 else 0)
  + (if dl = 1 ∧ d ≤ 1 ∧ (10 ≤ k ∨ 10 ≤ a) then -5 else 0)
  + (if 5 ≤ d ∧ d ≤ 15 then 3 else 0)

/-- The `(k_len, d_len)` pairs visited by the two nested `for` loops, in
enumeration order: `range(1, min(3, length-1)) × range(1, min(3, length-k_len))`. -/
def cutCandidates (len : Nat) : List (Nat × Nat) :=
  (List.range' 1 (min 3 (len - 1) - 1)).flatMap fun kl =>
    (List.range' 1 (min 3 (len - kl) - 1)).map fun dl => (kl, dl)

/-- The cuts `(kLen, dLen, aLen)` the loop body keeps: `a_len` in `1..3`
and the parsed `(K, D, A)` inside the admissible ranges. -/
def kdaCutsKept (s : List Nat) : List (Nat × Nat × Nat) :=
  (cutCandidates s.length).filterMap fun c =>
    if 1 ≤ s.length - c.1 - c.2 ∧ s.length - c.1 - c.2 ≤ 3 then
      if kdaInRange (cutKDA s c.1 c.2).1 (cutKDA s c.1 c.2).2.1
          (cutKDA s c.1 c.2).2.2 then
        some (c.1, c.2, s.length - c.1 - c.2)
      else none
    else none

/-- The list `valid_parses`: the scored tuples `(score, k, d, a)` in enumeration
order (one per kept cut). -/
def kdaCombos (s : List Nat) : List (Int × Nat × Nat × Nat) :=
  (kdaCutsKept s).map fun c =>
    (kdaScore s.length c.1 c.2.1 (cutKDA s c.1 c.2.1).1
      (cutKDA s c.1 c.2.1).2.1 (cutKDA s c.1 c.2.1).2.2,
     cutKDA s c.1 c.2.1)

/-- Strict lexicographic order on `(score, k, d, a)` tuples — Python's
tuple `<`. -/
def lexLT (x y : Int × Nat × Nat × Nat) : Prop :=
  x.1 < y.1 ∨ (x.1 = y.1 ∧ (x.2.1 < y.2.1 ∨ (x.2.1 = y.2.1 ∧
    (x.2.2.1 < y.2.2.1 ∨ (x.2.2.1 = y.2.2.1 ∧ x.2.2.2 < y.2.2.2)))))

instance (x y : Int × Nat × Nat × Nat) : Decidable (lexLT x y) := by
  unfold lexLT; infer_instance

/-- Reflexive lexicographic order on `(score, k, d, a)` tuples. -/
def lexLE (x y : Int × Nat × Nat × Nat) : Prop :=
  x.1 < y.1 ∨ (x.1 = y.1 ∧ (x.2.1 < y.2.1 ∨ (x.2.1 = y.2.1 ∧
    (x.2.2.1 < y.2.2.1 ∨ (x.2.2.1 = y.2.2.1 ∧ x.2.2.2 ≤ y.2.2.2)))))

/-- Sorting with `valid_parses.sort(reverse=True)` and taking element `[0]`
returns the lexicographically greatest tuple; realised as a fold. -/
def bestParse (l : List (Int × Nat × Nat × Nat)) :
    Option (Int × Nat × Nat × Nat) :=
  l.foldl (fun acc x =>
    match acc with
    | none => some x
    | some b => if lexLT b x then some x else some b) none

/-- Function `_parse_kda_all_combinations` (lines 391-448). -/
def parseKdaAllCombinations (s : List Nat) : Option (Nat × Nat × Nat) :=
  if s.length < 3 then none
  else
    match bestParse (kdaCombos s) with
    | some b => some (b.2.1, b.2.2.1, b.2.2.2)
    | none => none

/-!
## `_parse_concatenated_stats_smart` (lines 354-389)
-/

/-- Gold candidate `int(digits[-gold_len:])`: the gold candidate read off the last
`gl` digits of `s`. -/
def goldAt (s : List Nat) (gl : Nat) : Nat :=
  natOfDigits (s.drop (s.length - gl))

/-- One iteration of the `for gold_len in [5, 4]` loop, threading the
`(best_score, best_result)` accumulator. -/
def smartStep (s : List Nat) (acc : Int × (Nat × Nat × Nat × Nat))
    (goldLen : Nat) : Int × (Nat × Nat × Nat × Nat) :=
  if s.length < goldLen + 3 then acc
  else
    let gold := goldAt s goldLen
    if 3000 ≤ gold ∧ gold ≤ 40000 then
      match parseKdaAllCombinations (s.take (s.length - goldLen)) with
      | some (k, d, a) =>
          let sc : Int := if 8000 ≤ gold ∧ gold ≤ 30000 then 10 else 5
          if acc.1 < sc then (sc, (k, d, a, gold)) else acc
      | none => acc
    else acc

/-- Function `_parse_concatenated_stats_smart`: `best_score` starts at `-1`,
`best_result` at `(0, 0, 0, 0)`. -/
def parseConcatenatedStatsSmart (s : List Nat) : Nat × Nat × Nat × Nat :=
  if s.length < 7 then (0, 0, 0, 0)
  else ([5, 4].foldl (smartStep s) (-1, (0, 0, 0, 0))).2

/-!
## `extract_player_stats` (lines 278-352)

The OCR calls are abstracted as inputs: `text1` and `text2` are the two
stripped `image_to_string` variants, `words` the `data['text']` token
list of `image_to_data`.  Everything after those calls is pure text
processing and is embedded verbatim.
-/

/-- Helper for `digitRuns`: `acc` holds the digits of the current run in
reverse. -/
def digitRunsAux : List Char → List Char → List (List Char)
  | [], acc => if acc = [] then [] else [acc.reverse]
  | c :: cs, acc =>
    if c.isDigit then digitRunsAux cs (c :: acc)
    else if acc = [] then digitRunsAux cs []
    else acc.reverse :: digitRunsAux cs []

/-- Maximal digit runs of a text, in order (`re.findall(r'\d+', text)`). -/
def digitRuns (t : List Char) : List (List Char) := digitRunsAux t []

/-- The digit runs of a text parsed as integers, in order. -/
def runNumbers (t : List Char) : List Nat :=
  (digitRuns t).map fun r => natOfDigits (r.map charDigit)

/-- Python `str.strip()` (over the core whitespace characters). -/
def stripChars (t : List Char) : List Char :=
  ((t.dropWhile Char.isWhitespace).reverse.dropWhile Char.isWhitespace).reverse

/-- The `word_numbers` list of strategy 3: keep the non-blank tokens, keep those
with at least one digit, and parse the concatenation of their digits. -/
def wordNumbers (words : List (List Char)) : List Nat :=
  (words.filter fun w => stripChars w ≠ []).filterMap fun w =>
    let ds := w.filter Char.isDigit
    if ds = [] then none else some (natOfDigits (ds.map charDigit))

/-- The first four elements of a list, when it has at least four. -/
def firstFour (l : List Nat) : Option (Nat × Nat × Nat × Nat) :=
  match l with
  | a :: b :: c :: d :: _ => some (a, b, c, d)
  | _ => none

/-- Decimal digit string of a number, as Python `str(n)` produces it
(`[0]` for zero, no leading zeros otherwise). -/
def decDigits (n : Nat) : List Nat :=
  if n = 0 then [0] else (Nat.digits 10 n).reverse

/-- Strategy 5 (lines 339-351): split the first of exactly three token
numbers at position 1 or 2 into kills/deaths. -/
def splitFirstWord (w0 w1 w2 : Nat) : Nat × Nat × Nat × Nat :=
  let first := decDigits w0
  if 2 ≤ first.length then
    let k1 := natOfDigits (first.take 1)
    let d1 := natOfDigits (first.drop 1)
    if k1 ≤ 50 ∧ d1 ≤ 30 ∧ w1 ≤ 50 ∧ 1000 ≤ w2 then (k1, d1, w1, w2)
    else if 2 < first.length then
      let k2 := natOfDigits (first.take 2)
      let d2 := natOfDigits (first.drop 2)
      if k2 ≤ 50 ∧ d2 ≤ 30 ∧ w1 ≤ 50 ∧ 1000 ≤ w2 then (k2, d2, w1, w2)
      else (0, 0, 0, 0)
    else (0, 0, 0, 0)
  else (0, 0, 0, 0)

/-- Digits of `best_text = text1 if text1 else text2`, stripped of non-digits. -/
def allDigits (text1 text2 : List Char) : List Nat :=
  textDigits (if text1 ≠ [] then text1 else text2)

/-- Function `extract_player_stats` after the OCR calls (lines 302-352): the five
cascading strategies and the `(0, 0, 0, 0)` sentinel. -/
def extractPlayerStats (text1 text2 : List Char) (words : List (List Char)) :
    Nat × Nat × Nat × Nat :=
  match firstFour (runNumbers text1) with
  | some r => r
  | none =>
    match firstFour (runNumbers text2) with
    | some r => r
    | none =>
      match firstFour (wordNumbers words) with
      | some r => r
      | none =>
        if 7 ≤ (allDigits text1 text2).length then
          parseConcatenatedStatsSmart (allDigits text1 text2)
        else
          match wordNumbers words with
          | [w0, w1, w2] => splitFirstWord w0 w1 w2
          | _ => (0, 0, 0, 0)

/-!
## `_parse_rating` (lines 782-892)

Every value the code constructs is a decimal with exactly one fractional
digit, so values are modelled exactly in tenths (`7.8` is `78`); the
float comparisons with `3.0` and `20.0` coincide with the comparisons of
the tenths because the doubles involved are within `10^-10` of the exact
decimal and the bounds are exactly representable.  The function returns
`none` where the Python code returns the caller-supplied `default`
(its result is `default` exactly on the `none` paths, for every default).
-/

/-- The range check `3.0 <= value <= 20.0`, for a value given in tenths. -/
def inRatingRange (v : Nat) : Prop := 30 ≤ v ∧ v ≤ 200

instance (v : Nat) : Decidable (inRatingRange v) := by
  unfold inRatingRange; infer_instance

/-- Tenths value of a digit slice whose last digit is the decimal place:
`float(f"{sl[:-1]}.{sl[-1]}")`. -/
def sliceVal (sl : List Nat) : Nat := natOfDigits sl

/-- The last `n` digits of a digit string. -/
def lastDigits (l : List Nat) (n : Nat) : List Nat := l.drop (l.length - n)

/-- Strategy 1 (lines 809-828): with exactly one `'.'` in the text,
`clean_text.split('.')` has two parts; the value is the integer part
followed by the first fractional digit (`0` when the fractional part is
empty). -/
def ratingDotValue (t : List Char) : Nat :=
  let clean := t.filter fun c => c.isDigit || c = '.'
  let ip := (clean.takeWhile (· ≠ '.')).map charDigit
  let dp := ((clean.dropWhile (· ≠ '.')).drop 1).map charDigit
  natOfDigits ip * 10 + dp.headD 0

/-- The candidate list of the `len(digits) >= 4` branch (lines 846-883):
middle two, last two, last three, first two, first three. -/
def ratingCandidates (ds : List Nat) : List Nat :=
  [sliceVal ((ds.drop 1).take 2), sliceVal (lastDigits ds 2),
   sliceVal (lastDigits ds 3), sliceVal (ds.take 2), sliceVal (ds.take 3)]

/-- Strategy 2 (lines 830-892): interpretation of the bare digit string
by length, with the final `3.0 <= value <= 20.0` check. -/
def ratingFromDigits (ds : List Nat) : Option Nat :=
  match ds with
  | [] => none
  | [a] =>
      let v := a * 10
      if inRatingRange v then some v else none
  | [a, b] =>
      let v := sliceVal [a, b]
      if inRatingRange v then some v else none
  | [a, b, c] =>
      let v := if inRatingRange (sliceVal [a, b, c]) then sliceVal [a, b, c]
               else sliceVal [a, b]
      if inRatingRange v then some v else none
  | _ :: _ :: _ :: _ :: _ =>
      (ratingCandidates ds).find? fun v => decide (inRatingRange v)

/-- Function `_parse_rating`: empty text and digit-free text yield the default
(`none`); the dot interpretation is used when the text has exactly one
dot and the value is in range; otherwise the digit-string
interpretation. -/
def parseRating (t : List Char) : Option Nat :=
  if t = [] then none
  else if textDigits t = [] then none
  else if t.count '.' = 1 ∧ inRatingRange (ratingDotValue t) then
    some (ratingDotValue t)
  else ratingFromDigits (textDigits t)

/-- Candidate list of the rating decoder as §4.4 of the spec words it:
one candidate for lengths 1 and 2, two for length 3, five for length ≥ 4,
accepted first-in-range. -/
def specRatingCandidates (ds : List Nat) : List Nat :=
  match ds with
  | [] => []
  | [a] => [a * 10]
  | [a, b] => [sliceVal [a, b]]
  | [a, b, c] => [sliceVal [a, b, c], sliceVal [a, b]]
  | _ :: _ :: _ :: _ :: _ => ratingCandidates ds

/-- First in-range candidate, else the default (spec §4.4 wording). -/
def specRatingResult (ds : List Nat) : Option Nat :=
  (specRatingCandidates ds).find? fun v => decide (inRatingRange v)

/-!
## `_parse_duration` (lines 894-904)

`re.search(r'(\d{1,2}):(\d{2})', text)` is modelled by trying every
start position left to right; at one position the greedy 1-2 digit
minute group can only match two digits followed by `':'` or one digit
followed by `':'` (after two digits the backtracked single-digit attempt
would need the second digit to be `':'`, which is impossible).
-/

/-- Match of `(\d{1,2}):(\d{2})` anchored at the head of the text. -/
def mmssAt (l : List Char) : Option (List Char × List Char) :=
  match l with
  | a :: b :: rest =>
    if a.isDigit then
      if b.isDigit then
        match rest with
        | ':' :: c :: d :: _ =>
            if c.isDigit ∧ d.isDigit then some ([a, b], [c, d]) else none
        | _ => none
      else if b = ':' then
        match rest with
        | c :: d :: _ =>
            if c.isDigit ∧ d.isDigit then some ([a], [c, d]) else none
        | _ => none
      else none
    else none
  | _ => none

/-- Leftmost match of `(\d{1,2}):(\d{2})` in the text. -/
def searchMMSS : List Char → Option (List Char × List Char)
  | [] => none
  | c :: cs =>
    match mmssAt (c :: cs) with
    | some r => some r
    | none => searchMMSS cs

/-- Python `str.zfill(2)`. -/
def zfill2 (r : List Char) : List Char :=
  if r.length < 2 then List.replicate (2 - r.length) '0' ++ r else r

/-- Function `_parse_duration`: the regex groups verbatim, else the first two
digit runs (second zero-filled to two), else `"00:00"`. -/
def parseDuration (t : List Char) : List Char :=
  match searchMMSS t with
  | some (m, s) => m ++ ':' :: s
  | none =>
    match digitRuns t with
    | r1 :: r2 :: _ => r1 ++ ':' :: zfill2 r2
    | _ => ['0', '0', ':', '0', '0']

/-!
## `find_player_by_nickname` (lines 554-597) and `_similar_names`
(lines 599-611)

The OCR'd row nicknames are inputs; lowercasing uses the ASCII case map
(Python's `str.lower` restricted to the characters that occur here).
-/

/-- Python `s.lower().strip()`. -/
def lowerStrip (t : List Char) : List Char :=
  stripChars (t.map Char.toLower)

/-- Whether `p` occurs at the head of `t`. -/
def leadsWith : List Char → List Char → Bool
  | [], _ => true
  | _ :: _, [] => false
  | a :: as, b :: bs => a = b && leadsWith as bs

/-- Python substring test `p in t` (contiguous occurrence; the empty
string occurs in every string). -/
def occursIn (p : List Char) : List Char → Bool
  | [] => leadsWith p []
  | c :: rest => leadsWith p (c :: rest) || occursIn p rest

/-- Distinct characters of a string (`set(name)` as an ordered list). -/
def charSet (t : List Char) : List Char := t.dedup

/-- Function `_similar_names` with the default threshold `0.6`: Jaccard
similarity of the character sets; the float test
`intersection / union >= 0.6` is exactly `5 * intersection >= 3 * union`
for the small integer sizes involved. -/
def similarNames (n1 n2 : List Char) : Bool :=
  if n1 = [] ∨ n2 = [] then false
  else
    let s1 := charSet n1
    let s2 := charSet n2
    let inter := (s1.filter fun c => s2.contains c).length
    let uni := (s1 ++ s2.filter fun c => !s1.contains c).length
    if uni = 0 then false else 5 * inter ≥ 3 * uni

/-- The `possible_targets` list: the lowered target plus the alias
mappings that hit it in either direction, in table order. -/
def possibleTargets (mappings : List (List Char × List Char))
    (targetLower : List Char) : List (List Char) :=
  targetLower ::
    mappings.foldl (fun acc m =>
      if lowerStrip m.2 = targetLower then acc ++ [lowerStrip m.1]
      else if lowerStrip m.1 = targetLower then acc ++ [lowerStrip m.2]
      else acc) []

/-- Whether one row nickname matches any possible target: substring in
either direction, else `_similar_names`. -/
def nicknameHit (targets : List (List Char)) (nickLower : List Char) : Bool :=
  targets.any fun tg =>
    occursIn tg nickLower || occursIn nickLower tg || similarNames tg nickLower

/-- The `for idx, player_config in enumerate(...)` loop: return the
index of the first matching row. -/
def findPlayerLoop (targets : List (List Char)) :
    List (List Char) → Nat → Option Nat
  | [], _ => none
  | n :: rest, idx =>
    if nicknameHit targets (lowerStrip n) then some idx
    else findPlayerLoop targets rest (idx + 1)

/-- Function `find_player_by_nickname`: the extracted row nicknames are given as
`nicknames` (position order); returns the first matching row index. -/
def findPlayerByNickname (mappings : List (List Char × List Char))
    (nicknames : List (List Char)) (target : List Char) : Option Nat :=
  findPlayerLoop (possibleTargets mappings (lowerStrip target)) nicknames 0

/-!
## `ExtractorConfig.auto_select_profile` (config.py lines 324-350)

Aspect ratios are exact rationals here; the float divisions and the
absolute-difference comparison are modelled exactly.  Setting
`active_profile_name` is the returned name, so the function is modelled
by its return value over the registry's insertion-ordered profile list
(always containing the default profile).
-/

/-- The identity and reference resolution of a registered profile. -/
structure ResolutionProfile where
  name : List Char
  referenceWidth : Nat
  referenceHeight : Nat

/-- Aspect quotient `reference_width / reference_height` of a profile. -/
def aspectOf (p : ResolutionProfile) : ℚ :=
  (p.referenceWidth : ℚ) / (p.referenceHeight : ℚ)

/-- One iteration of the selection loop: replace the best candidate when
the new difference is strictly smaller (`diff < best_diff`). -/
def selectStep (ir : ℚ) (acc : List Char × Option ℚ) (p : ResolutionProfile) :
    List Char × Option ℚ :=
  let diff := |ir - aspectOf p|
  match acc.2 with
  | none => (p.name, some diff)
  | some bd => if diff < bd then (p.name, some diff) else acc

/-- Function `auto_select_profile`: `best_profile` starts at the default profile's
name with `best_diff = inf` (modelled as `none`), then scans the
registered profiles in insertion order. -/
def autoSelectProfile (profiles : List ResolutionProfile)
    (defaultName : List Char) (w h : Nat) : List Char :=
  let ir : ℚ := (w : ℚ) / (h : ℚ)
  (profiles.foldl (selectStep ir) (defaultName, none)).1

/-!
## `extract_all_players` (lines 706-750)

Image loading, profile selection and OCR are abstracted: `mi` is the
`MatchInfo` decoded once by `extract_match_info`, and `row i` the data
`extract_player_data` decodes for row `i` (its `position` field is set
by the code to `i + 1`).  The rating is kept in tenths, the remaining
fields as decoded.
-/

/-- The match-level record (`MatchInfo` dataclass). -/
structure MatchInfo where
  result : List Char
  myTeamScore : Nat
  adversaryTeamScore : Nat
  duration : List Char

/-- The per-row data decoded by the per-field extractors. -/
structure RowData where
  nickname : List Char
  kills : Nat
  deaths : Nat
  assists : Nat
  gold : Nat
  medal : List Char
  rating : Nat

/-- One dictionary of the result list of `extract_all_players`. -/
structure PlayerRecord where
  nickname : List Char
  kills : Nat
  deaths : Nat
  assists : Nat
  gold : Nat
  medal : List Char
  rating : Nat
  position : Nat
  result : List Char
  myTeamScore : Nat
  adversaryTeamScore : Nat
  duration : List Char

/-- Function `extract_all_players`: decode the match info once, then all five
rows unconditionally, sharing the match info across the records. -/
def extractAllPlayers (mi : MatchInfo) (row : Nat → RowData) :
    List PlayerRecord :=
  (List.range 5).map fun idx =>
    { nickname := (row idx).nickname
      kills := (row idx).kills
      deaths := (row idx).deaths
      assists := (row idx).assists
      gold := (row idx).gold
      medal := (row idx).medal
      rating := (row idx).rating
      position := idx + 1
      result := mi.result
      myTeamScore := mi.myTeamScore
      adversaryTeamScore := mi.adversaryTeamScore
      duration := mi.duration }

/-!
## Spec-side formulations used for comparison with the code
-/

/-- Cut admissibility as the spec words it (C1): three pieces of length
1-3 each covering `s`, whose parsed values pass the range filter. -/
def specKdaCut (s : List Nat) (c : Nat × Nat × Nat) : Prop :=
  1 ≤ c.1 ∧ c.1 ≤ 3 ∧ 1 ≤ c.2.1 ∧ c.2.1 ≤ 3 ∧ 1 ≤ c.2.2 ∧ c.2.2 ≤ 3 ∧
  c.1 + c.2.1 + c.2.2 = s.length ∧
  kdaInRange (cutKDA s c.1 c.2.1).1 (cutKDA s c.1 c.2.1).2.1
    (cutKDA s c.1 c.2.1).2.2

instance (s : List Nat) (c : Nat × Nat × Nat) : Decidable (specKdaCut s c) := by
  unfold specKdaCut; infer_instance

/-- The tie-break the spec claims (C2): among the scored combinations,
the first one in enumeration order whose score is maximal. -/
def firstMaxScore (l : List (Int × Nat × Nat × Nat)) :
    Option (Int × Nat × Nat × Nat) :=
  l.find? fun x => l.all fun y => y.1 ≤ x.1

/-!
## Helper lemmas
-/

theorem lexLE_refl (x : Int × Nat × Nat × Nat) : lexLE x x := by
  obtain ⟨a, b, c, d⟩ := x
  simp [lexLE]

theorem lexLE_of_lt {x y : Int × Nat × Nat × Nat} (h : lexLT x y) : lexLE x y := by
  obtain ⟨a, b, c, d⟩ := x
  obtain ⟨a', b', c', d'⟩ := y
  simp only [lexLT] at h
  simp only [lexLE]
  omega

theorem lexLE_trans {x y z : Int × Nat × Nat × Nat}
    (h1 : lexLE x y) (h2 : lexLE y z) : lexLE x z := by
  obtain ⟨a, b, c, d⟩ := x
  obtain ⟨a', b', c', d'⟩ := y
  obtain ⟨a'', b'', c'', d''⟩ := z
  simp only [lexLE] at h1 h2 ⊢
  omega

theorem lexLE_of_not_lt {x y : Int × Nat × Nat × Nat} (h : ¬ lexLT x y) :
    lexLE y x := by
  obtain ⟨a, b, c, d⟩ := x
  obtain ⟨a', b', c', d'⟩ := y
  simp only [lexLT] at h
  simp only [lexLE]
  omega

theorem bestParse_go (l : List (Int × Nat × Nat × Nat))
    (b : Int × Nat × Nat × Nat) :
    ∃ c, l.foldl (fun acc x =>
        match acc with
        | none => some x
        | some b => if lexLT b x then some x else some b) (some b) = some c ∧
      (c = b ∨ c ∈ l) ∧ lexLE b c ∧ ∀ x ∈ l, lexLE x c := by
  induction l generalizing b with
  | nil => exact ⟨b, rfl, Or.inl rfl, lexLE_refl b, by simp⟩
  | cons x l ih =>
    simp only [List.foldl_cons]
    by_cases h : lexLT b x
    · obtain ⟨c, hc, hmem, hle, hall⟩ := ih x
      refine ⟨c, by simpa [h] using hc, ?_, ?_, ?_⟩
      · rcases hmem with h' | h' <;> simp [h']
      · exact lexLE_trans (lexLE_of_lt h) hle
      · intro y hy
        rcases List.mem_cons.mp hy with rfl | hy'
        · exact hle
        · exact hall y hy'
    · obtain ⟨c, hc, hmem, hle, hall⟩ := ih b
      refine ⟨c, by simpa [h] using hc, ?_, hle, ?_⟩
      · rcases hmem with h' | h' <;> simp [h']
      · intro y hy
        rcases List.mem_cons.mp hy with rfl | hy'
        · exact lexLE_trans (lexLE_of_not_lt h) hle
        · exact hall y hy'

theorem bestParse_spec (l : List (Int × Nat × Nat × Nat)) :
    (bestParse l = none ↔ l = []) ∧
    ∀ c, bestParse l = some c → c ∈ l ∧ ∀ x ∈ l, lexLE x c := by
  cases l with
  | nil => exact ⟨by simp [bestParse], fun c h => by simp [bestParse] at h⟩
  | cons x l =>
    obtain ⟨c, hc, hmem, hle, hall⟩ := bestParse_go l x
    have hb : bestParse (x :: l) = some c := by
      simpa [bestParse, List.foldl_cons] using hc
    refine ⟨by simp [hb], fun c' h' => ?_⟩
    rw [hb] at h'
    obtain rfl : c = c' := by injection h'
    refine ⟨?_, ?_⟩
    · rcases hmem with h'' | h'' <;> simp [h'']
    · intro y hy
      rcases List.mem_cons.mp hy with rfl | hy'
      · exact hle
      · exact hall y hy'

theorem kdaCombos_eq_nil_of_short {s : List Nat} (h : s.length < 3) :
    kdaCombos s = [] := by
  have h0 : min 3 (s.length - 1) - 1 = 0 := by omega
  simp [kdaCombos, kdaCutsKept, cutCandidates, h0]

/-!
## Claim theorems
-/

/-- C1 (counterexample): on the digit-only string `"00011"`, the cut
`kLen = 3, dLen = 1, aLen = 1` parses to `K = 0, D = 1, A = 1`, which
passes the range filter, yet `_parse_kda_all_combinations` never
enumerates it: a passing cut with `kLen = 3` is omitted from the
candidate set. -/
theorem kda_cut_with_klen3_omitted :
    specKdaCut [0, 0, 0, 1, 1] (3, 1, 1) ∧
    (3, 1, 1) ∉ kdaCutsKept [0, 0, 0, 1, 1] := by decide

/-- C1 (amended): `_parse_kda_all_combinations` keeps exactly the cuts
of `kdaStr` into three non-empty pieces with `kLen ≤ 2`, `dLen ≤ 2` and
`aLen ≤ 3` whose parsed integers satisfy `0 ≤ K ≤ 50`, `0 ≤ D ≤ 30`,
`0 ≤ A ≤ 50`; cuts with `kLen = 3` or `dLen = 3` are never enumerated. -/
theorem kdaCutsKept_characterization (s : List Nat) (c : Nat × Nat × Nat) :
    c ∈ kdaCutsKept s ↔
      1 ≤ c.1 ∧ c.1 ≤ 2 ∧ 1 ≤ c.2.1 ∧ c.2.1 ≤ 2 ∧ 1 ≤ c.2.2 ∧ c.2.2 ≤ 3 ∧
      c.1 + c.2.1 + c.2.2 = s.length ∧
      kdaInRange (cutKDA s c.1 c.2.1).1 (cutKDA s c.1 c.2.1).2.1
        (cutKDA s c.1 c.2.1).2.2 := by
  obtain ⟨kl, dl, al⟩ := c
  dsimp only
  constructor
  · intro h
    simp only [kdaCutsKept, List.mem_filterMap] at h
    obtain ⟨⟨kl', dl'⟩, hmem, hf⟩ := h
    simp only [cutCandidates, List.mem_flatMap, List.mem_map,
      List.mem_range'_1, Prod.mk.injEq] at hmem
    obtain ⟨kl'', ⟨hk1, hk2⟩, dl'', ⟨hd1, hd2⟩, heqk, heqd⟩ := hmem
    subst heqk; subst heqd
    simp only [Option.ite_none_right_eq_some, Option.some.injEq,
      Prod.mk.injEq] at hf
    obtain ⟨⟨ha1, ha3⟩, hrange, rfl, rfl, rfl⟩ := hf
    exact ⟨by omega, by omega, by omega, by omega, by omega, by omega,
      by omega, hrange⟩
  · rintro ⟨h1, h2, h3, h4, h5, h6, h7, h8⟩
    simp only [kdaCutsKept, List.mem_filterMap]
    refine ⟨(kl, dl), ?_, ?_⟩
    · simp only [cutCandidates, List.mem_flatMap, List.mem_map,
        List.mem_range'_1, Prod.mk.injEq]
      exact ⟨kl, ⟨h1, by omega⟩, dl, ⟨h3, by omega⟩, rfl, rfl⟩
    · have hal : s.length - kl - dl = al := by omega
      simp only [hal, Option.ite_none_right_eq_some, Option.some.injEq,
        Prod.mk.injEq]
      exact ⟨⟨h5, h6⟩, h8, trivial⟩

/-- C1 (witness): the amended characterization applied to `"00011"` and
the kept cut `(1, 1, 3)`. -/
theorem kdaCutsKept_characterization_witness :
    (1, 1, 3) ∈ kdaCutsKept [0, 0, 0, 1, 1] :=
  (kdaCutsKept_characterization [0, 0, 0, 1, 1] (1, 1, 3)).mpr (by decide)

/-- C2 (counterexample): on `kdaStr = "1212"` the combinations
`(K,D,A) = (1,2,12)` (enumerated first) and `(12,1,2)` both score 13,
the maximum; the first one found in enumeration order is `(1,2,12)`,
but `_parse_kda_all_combinations` returns `(12,1,2)`:
`valid_parses.sort(reverse=True)` breaks score ties by the LARGEST
`(k, d, a)` tuple, not by enumeration order. -/
theorem parseKda_tiebreak_counterexample :
    firstMaxScore (kdaCombos [1, 2, 1, 2]) = some (13, 1, 2, 12) ∧
    parseKdaAllCombinations [1, 2, 1, 2] = some (12, 1, 2) ∧
    ((1, 2, 12) : Nat × Nat × Nat) ≠ (12, 1, 2) := by decide

/-- C2 (amended): `_parse_kda_all_combinations` returns `None` exactly
when no combination passes the range filter, and otherwise returns the
combination that is greatest in the lexicographic order on
`(score, K, D, A)` — i.e. the highest-scoring combination, with score
ties broken in favour of the lexicographically largest `(K, D, A)`
(not the first found). -/
theorem parseKda_highest_score_lex_tiebreak (s : List Nat) :
    (parseKdaAllCombinations s = none ↔ kdaCombos s = []) ∧
    ∀ k d a, parseKdaAllCombinations s = some (k, d, a) →
      ∃ sc, (sc, k, d, a) ∈ kdaCombos s ∧
        ∀ x ∈ kdaCombos s, lexLE x (sc, k, d, a) := by
  obtain ⟨hnone, hsome⟩ := bestParse_spec (kdaCombos s)
  constructor
  · by_cases hlen : s.length < 3
    · simp [parseKdaAllCombinations, hlen, kdaCombos_eq_nil_of_short hlen]
    · simp only [parseKdaAllCombinations, if_neg hlen]
      cases hb : bestParse (kdaCombos s) with
      | none => simpa using hnone.mp hb
      | some b =>
          have hne := (hsome b hb).1
          simp only [iff_iff_implies_and_implies]
          constructor
          · intro h; cases h
          · intro h; rw [h] at hne; cases hne
  · intro k d a h
    by_cases hlen : s.length < 3
    · simp [parseKdaAllCombinations, hlen] at h
    · simp only [parseKdaAllCombinations, if_neg hlen] at h
      cases hb : bestParse (kdaCombos s) with
      | none => rw [hb] at h; cases h
      | some b =>
          obtain ⟨sc, bk, bd, ba⟩ := b
          rw [hb] at h
          obtain ⟨rfl, rfl, rfl⟩ : bk = k ∧ bd = d ∧ ba = a := by
            simpa using h
          exact ⟨sc, (hsome _ hb).1, (hsome _ hb).2⟩

/-- C2 (witness): the amended theorem applied to `kdaStr = "1212"`. -/
theorem parseKda_highest_score_lex_tiebreak_witness :
    ∃ sc, (sc, 12, 1, 2) ∈ kdaCombos [1, 2, 1, 2] ∧
      ∀ x ∈ kdaCombos [1, 2, 1, 2], lexLE x (sc, 12, 1, 2) :=
  (parseKda_highest_score_lex_tiebreak [1, 2, 1, 2]).2 12 1 2 (by decide)

/-- C3: the Smart-Split decoder maps `"531212345"` to `(5, 3, 12, 12345)`;
it tries the 5-digit gold first and keeps its result whenever that gold
is in the preferred band and the remaining digits parse (the 4-digit
attempt can never beat its score 10); each `goldLen` needs
`len(digits) ≥ goldLen + 3` and a gold inside `[3000, 40000]`, and the
zero sentinel results when both attempts are rejected. -/
theorem smartSplit_spec :
    parseConcatenatedStatsSmart [5, 3, 1, 2, 1, 2, 3, 4, 5] = (5, 3, 12, 12345) ∧
    (∀ s k d a, 8 ≤ s.length → 8000 ≤ goldAt s 5 → goldAt s 5 ≤ 30000 →
      parseKdaAllCombinations (s.take (s.length - 5)) = some (k, d, a) →
      parseConcatenatedStatsSmart s = (k, d, a, goldAt s 5)) ∧
    (∀ s, s.length < 7 → parseConcatenatedStatsSmart s = (0, 0, 0, 0)) ∧
    (∀ s, 7 ≤ s.length →
      ¬(8 ≤ s.length ∧ 3000 ≤ goldAt s 5 ∧ goldAt s 5 ≤ 40000) →
      ¬(3000 ≤ goldAt s 4 ∧ goldAt s 4 ≤ 40000) →
      parseConcatenatedStatsSmart s = (0, 0, 0, 0)) := by
  refine ⟨by decide, ?_, ?_, ?_⟩
  · intro s k d a h8 hg1 hg2 hkda
    have h7 : ¬ s.length < 7 := by omega
    have h5 : ¬ s.length < 5 + 3 := by omega
    have h4 : ¬ s.length < 4 + 3 := by omega
    have hstep5 : smartStep s (-1, (0, 0, 0, 0)) 5 = (10, (k, d, a, goldAt s 5)) := by
      unfold smartStep
      rw [if_neg h5, if_pos (⟨by omega, by omega⟩ :
        3000 ≤ goldAt s 5 ∧ goldAt s 5 ≤ 40000), hkda]
      simp only
      rw [if_pos (show 8000 ≤ goldAt s 5 ∧ goldAt s 5 ≤ 30000 from ⟨hg1, hg2⟩),
        if_pos (show (-1 : Int) < 10 by norm_num)]
    have hstep4 : smartStep s (10, (k, d, a, goldAt s 5)) 4 =
        (10, (k, d, a, goldAt s 5)) := by
      unfold smartStep
      rw [if_neg h4]
      by_cases hg : 3000 ≤ goldAt s 4 ∧ goldAt s 4 ≤ 40000
      · rw [if_pos hg]
        cases hp : parseKdaAllCombinations (s.take (s.length - 4)) with
        | none => rfl
        | some t =>
            obtain ⟨k', d', a'⟩ := t
            simp only
            by_cases hc : 8000 ≤ goldAt s 4 ∧ goldAt s 4 ≤ 30000
            · rw [if_pos hc, if_neg (by norm_num : ¬ (10 : Int) < 10)]
            · rw [if_neg hc, if_neg (by norm_num : ¬ (10 : Int) < 5)]
      · rw [if_neg hg]
    simp only [parseConcatenatedStatsSmart, if_neg h7, List.foldl_cons,
      List.foldl_nil, hstep5, hstep4]
  · intro s h
    simp [parseConcatenatedStatsSmart, h]
  · intro s h7 hng5 hng4
    have h7' : ¬ s.length < 7 := by omega
    have hstep5 : smartStep s (-1, (0, 0, 0, 0)) 5 = (-1, (0, 0, 0, 0)) := by
      unfold smartStep
      by_cases h8 : s.length < 5 + 3
      · rw [if_pos h8]
      · rw [if_neg h8, if_neg (by omega : ¬ (3000 ≤ goldAt s 5 ∧ goldAt s 5 ≤ 40000))]
    have hstep4 : smartStep s (-1, (0, 0, 0, 0)) 4 = (-1, (0, 0, 0, 0)) := by
      unfold smartStep
      rw [if_neg (by omega : ¬ s.length < 4 + 3), if_neg hng4]
    simp only [parseConcatenatedStatsSmart, if_neg h7', List.foldl_cons,
      List.foldl_nil, hstep5, hstep4]

/-- C3 (witness): the general conjuncts applied to the literal digit
strings `"531212345"`, `"123"` and `"9991111"`. -/
theorem smartSplit_spec_witness :
    parseConcatenatedStatsSmart [5, 3, 1, 2, 1, 2, 3, 4, 5] =
      (5, 3, 12, goldAt [5, 3, 1, 2, 1, 2, 3, 4, 5] 5) ∧
    parseConcatenatedStatsSmart [1, 2, 3] = (0, 0, 0, 0) ∧
    parseConcatenatedStatsSmart [9, 9, 9, 1, 1, 1, 1] = (0, 0, 0, 0) :=
  ⟨smartSplit_spec.2.1 [5, 3, 1, 2, 1, 2, 3, 4, 5] 5 3 12 (by decide)
      (by decide) (by decide) (by decide),
   smartSplit_spec.2.2.1 [1, 2, 3] (by decide),
   smartSplit_spec.2.2.2 [9, 9, 9, 1, 1, 1, 1] (by decide) (by decide)
      (by decide)⟩

theorem firstFour_eq_none {l : List Nat} (h : l.length < 4) :
    firstFour l = none := by
  rcases l with _ | ⟨a, _ | ⟨b, _ | ⟨c, _ | ⟨d, rest⟩⟩⟩⟩
  · rfl
  · rfl
  · rfl
  · rfl
  · simp at h; omega

/-- C4: `extract_player_stats` (after the OCR calls) always returns a
4-tuple of naturals; when the first variant's text has at least four
digit runs the result is exactly the first four runs in order,
independently of the other inputs; and when every cascading strategy
fails the result is the `(0, 0, 0, 0)` sentinel. -/
theorem extractPlayerStats_spec :
    (∀ t1 t2 w, ∃ k d a g, extractPlayerStats t1 t2 w = (k, d, a, g)) ∧
    (∀ t1 t2 w a b c d rest, runNumbers t1 = a :: b :: c :: d :: rest →
      extractPlayerStats t1 t2 w = (a, b, c, d)) ∧
    (∀ t1 t2 w, (runNumbers t1).length < 4 → (runNumbers t2).length < 4 →
      (wordNumbers w).length < 4 → (allDigits t1 t2).length < 7 →
      (∀ w0 w1 w2, wordNumbers w = [w0, w1, w2] →
        splitFirstWord w0 w1 w2 = (0, 0, 0, 0)) →
      extractPlayerStats t1 t2 w = (0, 0, 0, 0)) := by
  refine ⟨?_, ?_, ?_⟩
  · intro t1 t2 w
    exact ⟨(extractPlayerStats t1 t2 w).1, (extractPlayerStats t1 t2 w).2.1,
      (extractPlayerStats t1 t2 w).2.2.1, (extractPlayerStats t1 t2 w).2.2.2,
      rfl⟩
  · intro t1 t2 w a b c d rest h
    simp [extractPlayerStats, h, firstFour]
  · intro t1 t2 w h1 h2 h3 h4 h5
    simp only [extractPlayerStats, firstFour_eq_none h1, firstFour_eq_none h2,
      firstFour_eq_none h3]
    rw [if_neg (by omega)]
    rcases hw : wordNumbers w with _ | ⟨w0, _ | ⟨w1, _ | ⟨w2, _ | ⟨w3, r⟩⟩⟩⟩
    · rfl
    · rfl
    · rfl
    · exact h5 w0 w1 w2 hw
    · rfl

/-- C4 (witness): the strategy-1 conjunct on `"1 2 3 4"` and the
sentinel conjunct on empty inputs. -/
theorem extractPlayerStats_spec_witness :
    extractPlayerStats ['1', ' ', '2', ' ', '3', ' ', '4'] [] [] = (1, 2, 3, 4) ∧
    extractPlayerStats [] [] [] = (0, 0, 0, 0) :=
  ⟨extractPlayerStats_spec.2.1 ['1', ' ', '2', ' ', '3', ' ', '4'] [] [] 1 2 3 4
      [] (by decide),
   extractPlayerStats_spec.2.2 [] [] [] (by decide) (by decide) (by decide)
      (by decide) (fun w0 w1 w2 h => nomatch h)⟩

theorem ratingFromDigits_eq_spec (ds : List Nat) :
    ratingFromDigits ds = specRatingResult ds := by
  rcases ds with _ | ⟨a, _ | ⟨b, _ | ⟨c, _ | ⟨d, rest⟩⟩⟩⟩
  · rfl
  · by_cases h : inRatingRange (a * 10) <;>
      simp [ratingFromDigits, specRatingResult, specRatingCandidates,
        List.find?, h]
  · by_cases h : inRatingRange (sliceVal [a, b]) <;>
      simp [ratingFromDigits, specRatingResult, specRatingCandidates,
        List.find?, h]
  · by_cases h3 : inRatingRange (sliceVal [a, b, c]) <;>
      by_cases h2 : inRatingRange (sliceVal [a, b]) <;>
      simp [ratingFromDigits, specRatingResult, specRatingCandidates,
        List.find?, h3, h2]
  · rfl

theorem ratingFromDigits_range (ds : List Nat) :
    ratingFromDigits ds = none ∨
      ∃ v, ratingFromDigits ds = some v ∧ inRatingRange v := by
  rw [ratingFromDigits_eq_spec]
  unfold specRatingResult
  cases hf : (specRatingCandidates ds).find? fun v => decide (inRatingRange v) with
  | none => exact Or.inl rfl
  | some v => exact Or.inr ⟨v, rfl, by simpa using List.find?_some hf⟩

/-- C5: `_parse_rating` always yields either a value in `[3.0, 20.0]` or
the caller-supplied default (`none`); on digit-only text it returns the
first in-range candidate of the per-length candidate lists (one
candidate for lengths 1-2, `d[0:2].d[2]` then `d[0].d[1]` for length 3,
and middle-two / last-two / last-three / first-two / first-three for
length ≥ 4), else the default; and the literal cases `"7.8" → 7.8`,
`"7.87" → 7.8`, `"78" → 7.8`, `"115" → 11.5`, `"61" → 6.1`,
`"abc" → default` hold (values in tenths). -/
theorem parseRating_spec :
    (∀ t, parseRating t = none ∨
      ∃ v, parseRating t = some v ∧ inRatingRange v) ∧
    (∀ t, t ≠ [] → (∀ c ∈ t, c.isDigit) →
      parseRating t = specRatingResult (textDigits t)) ∧
    parseRating ['7', '.', '8'] = some 78 ∧
    parseRating ['7', '.', '8', '7'] = some 78 ∧
    parseRating ['7', '8'] = some 78 ∧
    parseRating ['1', '1', '5'] = some 115 ∧
    parseRating ['6', '1'] = some 61 ∧
    parseRating ['a', 'b', 'c'] = none := by
  refine ⟨?_, ?_, by decide, by decide, by decide, by decide, by decide,
    by decide⟩
  · intro t
    by_cases h0 : t = []
    · left; simp [parseRating, h0]
    · by_cases h1 : textDigits t = []
      · left; simp [parseRating, h0, h1]
      · by_cases h2 : t.count '.' = 1 ∧ inRatingRange (ratingDotValue t)
        · right
          exact ⟨ratingDotValue t, by simp [parseRating, h0, h1, h2], h2.2⟩
        · have h3 := ratingFromDigits_range (textDigits t)
          simpa [parseRating, h0, h1, h2] using h3
  · intro t hne hdig
    have hfilter : t.filter Char.isDigit = t :=
      List.filter_eq_self.mpr fun c hc => hdig c hc
    have hne' : textDigits t ≠ [] := by
      rw [textDigits, hfilter]
      simpa using hne
    have hcount : t.count '.' = 0 := by
      rw [List.count_eq_zero]
      intro hc
      have h := hdig '.' hc
      simp at h
    rw [parseRating.eq_def, if_neg hne, if_neg hne',
      if_neg (by simp [hcount] : ¬ (t.count '.' = 1 ∧
        inRatingRange (ratingDotValue t)))]
    exact ratingFromDigits_eq_spec _

/-- C5 (witness): the digit-only refinement conjunct applied to `"78"`. -/
theorem parseRating_spec_witness :
    parseRating ['7', '8'] = specRatingResult (textDigits ['7', '8']) :=
  parseRating_spec.2.1 ['7', '8'] (by decide) (by decide)

theorem mmssAt_shape {l m s : List Char} (h : mmssAt l = some (m, s)) :
    (1 ≤ m.length ∧ m.length ≤ 2) ∧ s.length = 2 ∧
    (∀ c ∈ m, c.isDigit) ∧ (∀ c ∈ s, c.isDigit) := by
  unfold mmssAt at h
  split at h
  case h_2 => exact Option.noConfusion h
  next a b rest =>
    split at h
    case isFalse => exact Option.noConfusion h
    case isTrue ha =>
      split at h
      case isTrue hb =>
        split at h
        case h_2 => exact Option.noConfusion h
        next c d tail =>
          split at h
          case isFalse => exact Option.noConfusion h
          case isTrue hcd =>
            obtain ⟨h1, h2⟩ := Prod.ext_iff.mp (Option.some.inj h)
            subst h1; subst h2
            refine ⟨⟨by simp, by simp⟩, by simp, ?_, ?_⟩
            · intro x hx
              rcases List.mem_cons.mp hx with rfl | hx'
              · exact ha
              · rcases List.mem_cons.mp hx' with rfl | hx''
                · exact hb
                · cases hx''
            · intro x hx
              rcases List.mem_cons.mp hx with rfl | hx'
              · exact hcd.1
              · rcases List.mem_cons.mp hx' with rfl | hx''
                · exact hcd.2
                · cases hx''
      case isFalse hb =>
        split at h
        case isFalse => exact Option.noConfusion h
        case isTrue hbc =>
          split at h
          case h_2 => exact Option.noConfusion h
          next c d tail =>
            split at h
            case isFalse => exact Option.noConfusion h
            case isTrue hcd =>
              obtain ⟨h1, h2⟩ := Prod.ext_iff.mp (Option.some.inj h)
              subst h1; subst h2
              refine ⟨⟨by simp, by simp⟩, by simp, ?_, ?_⟩
              · intro x hx
                rcases List.mem_cons.mp hx with rfl | hx'
                · exact ha
                · cases hx'
              · intro x hx
                rcases List.mem_cons.mp hx with rfl | hx'
                · exact hcd.1
                · rcases List.mem_cons.mp hx' with rfl | hx''
                  · exact hcd.2
                  · cases hx''

theorem searchMMSS_shape {t m s : List Char}
    (h : searchMMSS t = some (m, s)) :
    (1 ≤ m.length ∧ m.length ≤ 2) ∧ s.length = 2 ∧
    (∀ c ∈ m, c.isDigit) ∧ (∀ c ∈ s, c.isDigit) := by
  induction t with
  | nil => exact Option.noConfusion h
  | cons c cs ih =>
    unfold searchMMSS at h
    cases hm : mmssAt (c :: cs) with
    | some r =>
        rw [hm] at h
        obtain rfl : r = (m, s) := Option.some.inj h
        exact mmssAt_shape hm
    | none => rw [hm] at h; exact ih h

/-- C6 (counterexample): on input `"08:45"` the regex branch returns the
matched groups verbatim, `"08:45"` — the minute part keeps its leading
zero, so the result is not the unpadded `"8:45"` the claim requires. -/
theorem parseDuration_leading_zero_counterexample :
    parseDuration ['0', '8', ':', '4', '5'] = ['0', '8', ':', '4', '5'] ∧
    parseDuration ['0', '8', ':', '4', '5'] ≠ ['8', ':', '4', '5'] := by decide

/-- C6 (amended): when the text contains a `\d{1,2}:\d{2}` match,
`_parse_duration` returns the matched minute and second groups verbatim
(minute 1-2 digits exactly as matched, possibly with a leading zero;
seconds exactly the two matched digits); otherwise with at least two
digit runs it returns the first run, a colon, and the second run
zero-filled to 2; otherwise `"00:00"` — and `"18:45" → "18:45"`,
`"18 45" → "18:45"`, `"garbage" → "00:00"`. -/
theorem parseDuration_spec :
    (∀ t m s, searchMMSS t = some (m, s) →
      parseDuration t = m ++ ':' :: s ∧
      (1 ≤ m.length ∧ m.length ≤ 2) ∧ s.length = 2 ∧
      (∀ c ∈ m, c.isDigit) ∧ (∀ c ∈ s, c.isDigit)) ∧
    (∀ t r1 r2 rest, searchMMSS t = none → digitRuns t = r1 :: r2 :: rest →
      parseDuration t = r1 ++ ':' :: zfill2 r2) ∧
    (∀ t, searchMMSS t = none → (digitRuns t).length < 2 →
      parseDuration t = ['0', '0', ':', '0', '0']) ∧
    parseDuration ['1', '8', ':', '4', '5'] = ['1', '8', ':', '4', '5'] ∧
    parseDuration ['1', '8', ' ', '4', '5'] = ['1', '8', ':', '4', '5'] ∧
    parseDuration ['g', 'a', 'r', 'b', 'a', 'g', 'e'] =
      ['0', '0', ':', '0', '0'] := by
  refine ⟨?_, ?_, ?_, by decide, by decide, by decide⟩
  · intro t m s h
    exact ⟨by simp [parseDuration, h], searchMMSS_shape h⟩
  · intro t r1 r2 rest hn hr
    simp [parseDuration, hn, hr]
  · intro t hn hlen
    simp only [parseDuration, hn]
    rcases hr : digitRuns t with _ | ⟨r1, _ | ⟨r2, rest⟩⟩
    · rfl
    · rfl
    · rw [hr] at hlen; simp at hlen; omega

/-- C6 (witness): the three general conjuncts applied to `"18:45"`,
`"18 45"` and `"garbage"`. -/
theorem parseDuration_spec_witness :
    parseDuration ['1', '8', ':', '4', '5'] = ['1', '8'] ++ ':' :: ['4', '5'] ∧
    parseDuration ['1', '8', ' ', '4', '5'] =
      ['1', '8'] ++ ':' :: zfill2 ['4', '5'] ∧
    parseDuration ['g', 'a', 'r', 'b', 'a', 'g', 'e'] =
      ['0', '0', ':', '0', '0'] :=
  ⟨(parseDuration_spec.1 ['1', '8', ':', '4', '5'] ['1', '8'] ['4', '5']
      (by decide)).1,
   parseDuration_spec.2.1 ['1', '8', ' ', '4', '5'] ['1', '8'] ['4', '5'] []
      (by decide) (by decide),
   parseDuration_spec.2.2.1 ['g', 'a', 'r', 'b', 'a', 'g', 'e'] (by decide)
      (by decide)⟩

theorem selectFold_acc (ps : List ResolutionProfile) (ir : ℚ) :
    ∀ (nm : List Char) (bd : ℚ),
      (ps.foldl (selectStep ir) (nm, some bd) = (nm, some bd) ∧
        ∀ q ∈ ps, bd ≤ |ir - aspectOf q|) ∨
      (∃ l1 p l2, ps = l1 ++ p :: l2 ∧
        ps.foldl (selectStep ir) (nm, some bd) =
          (p.name, some |ir - aspectOf p|) ∧
        |ir - aspectOf p| < bd ∧
        (∀ q ∈ ps, |ir - aspectOf p| ≤ |ir - aspectOf q|) ∧
        (∀ q ∈ l1, |ir - aspectOf p| < |ir - aspectOf q|)) := by
  induction ps with
  | nil => exact fun nm bd => Or.inl ⟨rfl, by simp⟩
  | cons p ps ih =>
    intro nm bd
    by_cases hd : |ir - aspectOf p| < bd
    · have hstep : selectStep ir (nm, some bd) p =
          (p.name, some |ir - aspectOf p|) := by
        simp [selectStep, hd]
      rcases ih p.name |ir - aspectOf p| with ⟨hres, hmin⟩ |
        ⟨l1, p', l2, hsplit, hres, hlt, hmin, hstrict⟩
      · refine Or.inr ⟨[], p, ps, by simp, ?_, hd, ?_, by simp⟩
        · simp only [List.foldl_cons, hstep, hres]
        · intro q hq
          rcases List.mem_cons.mp hq with rfl | hq'
          · exact le_refl _
          · exact hmin q hq'
      · refine Or.inr ⟨p :: l1, p', l2, by simp [hsplit], ?_,
          lt_trans hlt hd, ?_, ?_⟩
        · simp only [List.foldl_cons, hstep, hres]
        · intro q hq
          rcases List.mem_cons.mp hq with rfl | hq'
          · exact le_of_lt hlt
          · exact hmin q hq'
        · intro q hq
          rcases List.mem_cons.mp hq with rfl | hq'
          · exact hlt
          · exact hstrict q hq'
    · have hstep : selectStep ir (nm, some bd) p = (nm, some bd) := by
        simp [selectStep, hd]
      rcases ih nm bd with ⟨hres, hmin⟩ |
        ⟨l1, p', l2, hsplit, hres, hlt, hmin, hstrict⟩
      · refine Or.inl ⟨by simp only [List.foldl_cons, hstep, hres], ?_⟩
        intro q hq
        rcases List.mem_cons.mp hq with rfl | hq'
        · exact le_of_not_lt hd
        · exact hmin q hq'
      · refine Or.inr ⟨p :: l1, p', l2, by simp [hsplit], ?_, hlt, ?_, ?_⟩
        · simp only [List.foldl_cons, hstep, hres]
        · intro q hq
          rcases List.mem_cons.mp hq with rfl | hq'
          · exact le_of_lt (lt_of_lt_of_le hlt (le_of_not_lt hd))
          · exact hmin q hq'
        · intro q hq
          rcases List.mem_cons.mp hq with rfl | hq'
          · exact lt_of_lt_of_le hlt (le_of_not_lt hd)
          · exact hstrict q hq'

theorem selectFold_start (ps : List ResolutionProfile) (ir : ℚ)
    (dn : List Char) (hne : ps ≠ []) :
    ∃ l1 p l2, ps = l1 ++ p :: l2 ∧
      ps.foldl (selectStep ir) (dn, none) =
        (p.name, some |ir - aspectOf p|) ∧
      (∀ q ∈ ps, |ir - aspectOf p| ≤ |ir - aspectOf q|) ∧
      (∀ q ∈ l1, |ir - aspectOf p| < |ir - aspectOf q|) := by
  cases ps with
  | nil => exact absurd rfl hne
  | cons p ps =>
    have hstep : selectStep ir (dn, none) p =
        (p.name, some |ir - aspectOf p|) := by
      simp [selectStep]
    rcases selectFold_acc ps ir p.name |ir - aspectOf p| with ⟨hres, hmin⟩ |
      ⟨l1, p', l2, hsplit, hres, hlt, hmin, hstrict⟩
    · refine ⟨[], p, ps, by simp, ?_, ?_, by simp⟩
      · simp only [List.foldl_cons, hstep, hres]
      · intro q hq
        rcases List.mem_cons.mp hq with rfl | hq'
        · exact le_refl _
        · exact hmin q hq'
    · refine ⟨p :: l1, p', l2, by simp [hsplit], ?_, ?_, ?_⟩
      · simp only [List.foldl_cons, hstep, hres]
      · intro q hq
        rcases List.mem_cons.mp hq with rfl | hq'
        · exact le_of_lt hlt
        · exact hmin q hq'
      · intro q hq
        rcases List.mem_cons.mp hq with rfl | hq'
        · exact hlt
        · exact hstrict q hq'

/-- C8: with the default profile registered and a positive image size,
`auto_select_profile` selects (activates and returns the name of) a
registered profile whose aspect-ratio difference
`|imageRatio - referenceWidth/referenceHeight|` is minimal over the
whole registry, and every profile listed before it in insertion order
has a strictly larger difference (first minimal wins); it never fails
since the registry is non-empty. -/
theorem autoSelectProfile_spec (ps : List ResolutionProfile)
    (dp : ResolutionProfile) (dn : List Char) (w h : Nat)
    (hmem : dp ∈ ps) (_hw : 0 < w) (_hh : 0 < h) :
    ∃ l1 p l2, ps = l1 ++ p :: l2 ∧
      autoSelectProfile ps dn w h = p.name ∧
      (∀ q ∈ ps, |(w : ℚ) / (h : ℚ) - aspectOf p| ≤
        |(w : ℚ) / (h : ℚ) - aspectOf q|) ∧
      (∀ q ∈ l1, |(w : ℚ) / (h : ℚ) - aspectOf p| <
        |(w : ℚ) / (h : ℚ) - aspectOf q|) := by
  obtain ⟨l1, p, l2, hsplit, hres, hmin, hstrict⟩ :=
    selectFold_start ps ((w : ℚ) / (h : ℚ)) dn (List.ne_nil_of_mem hmem)
  exact ⟨l1, p, l2, hsplit, by simp only [autoSelectProfile, hres], hmin,
    hstrict⟩

/-- C8 (witness): a one-profile registry holding only the default
profile (reference 2400x1080) on a 2400x1080 image. -/
theorem autoSelectProfile_spec_witness :
    ∃ l1 p l2,
      [ResolutionProfile.mk ['d'] 2400 1080] = l1 ++ p :: l2 ∧
      autoSelectProfile [ResolutionProfile.mk ['d'] 2400 1080] ['d']
        2400 1080 = p.name ∧
      (∀ q ∈ [ResolutionProfile.mk ['d'] 2400 1080],
        |(2400 : ℚ) / (1080 : ℚ) - aspectOf p| ≤
          |(2400 : ℚ) / (1080 : ℚ) - aspectOf q|) ∧
      (∀ q ∈ l1, |(2400 : ℚ) / (1080 : ℚ) - aspectOf p| <
        |(2400 : ℚ) / (1080 : ℚ) - aspectOf q|) :=
  autoSelectProfile_spec [ResolutionProfile.mk ['d'] 2400 1080]
    (ResolutionProfile.mk ['d'] 2400 1080) ['d'] 2400 1080
    (List.mem_singleton.mpr rfl) (by norm_num) (by norm_num)

/-- C9: `extract_all_players` returns exactly 5 records, one per row
position 1 through 5, and all records carry the identical match-info
fields, which are decoded once and shared — whatever the per-row decode
results are. -/
theorem extractAllPlayers_spec (mi : MatchInfo) (row : Nat → RowData) :
    (extractAllPlayers mi row).length = 5 ∧
    (extractAllPlayers mi row).map (fun r => r.position) = [1, 2, 3, 4, 5] ∧
    (extractAllPlayers mi row).map (fun r =>
        (r.result, r.myTeamScore, r.adversaryTeamScore, r.duration)) =
      List.replicate 5
        (mi.result, mi.myTeamScore, mi.adversaryTeamScore, mi.duration) :=
  ⟨rfl, rfl, rfl⟩

theorem occursIn_nil (t : List Char) : occursIn [] t = true := by
  cases t <;> rfl

/-- C10: when the target nickname is empty after lowercasing and
trimming (empty or whitespace-only), `find_player_by_nickname` returns
row index 0 for every non-empty row list and every alias table: the
empty string is a substring of every row nickname, and the substring
rule is checked before the similarity rule, rows in position order. -/
theorem findPlayerByNickname_empty_target
    (mappings : List (List Char × List Char))
    (nicknames : List (List Char)) (target : List Char)
    (hne : nicknames ≠ []) (hempty : lowerStrip target = []) :
    findPlayerByNickname mappings nicknames target = some 0 := by
  cases nicknames with
  | nil => exact absurd rfl hne
  | cons n rest =>
    have hhit : nicknameHit (possibleTargets mappings (lowerStrip target))
        (lowerStrip n) = true := by
      rw [hempty]
      simp only [nicknameHit, possibleTargets, List.any_cons, occursIn_nil,
        Bool.true_or, Bool.or_true]
    unfold findPlayerByNickname findPlayerLoop
    rw [hhit]
    rfl

/-- C10 (witness): a whitespace-only target on a one-row list. -/
theorem findPlayerByNickname_empty_target_witness :
    findPlayerByNickname [] [['a']] [' '] = some 0 :=
  findPlayerByNickname_empty_target [] [['a']] [' '] (by decide) (by decide)

end MLBB
